import Mathlib

/-!
Verification of the record-linkage core of `gitLab-impact-tracker`
(`data_cleaning/pure_id_tools.py`).

Strings are modelled as `List Char`.  The Unicode data tables used by the
Python code (`unicodedata.normalize("NFKD", ·)`, `unicodedata.combining`,
`str.casefold`, the whitespace class of `re` / `str.strip`) are modelled by
finite, explicit tables covering the characters exercised by the
specification, with the identity as default — the pipeline structure of the
code is kept exactly.
-/

namespace PureIdTools

/-- Whitespace characters, modelling the class matched by the regex
`\s` and stripped by `str.strip` (ASCII whitespace). -/
def isSpace (c : Char) : Bool :=
  c = ' ' || c = '\t' || c = '\n' || c = '\r' ||
  c = Char.ofNat 11 || c = Char.ofNat 12

/-- Combining acute, grave, circumflex, tilde, diaeresis, ring, cedilla:
a finite model of `unicodedata.combining(ch) != 0`. -/
def isCombining (c : Char) : Bool :=
  c = Char.ofNat 0x300 || c = Char.ofNat 0x301 || c = Char.ofNat 0x302 ||
  c = Char.ofNat 0x303 || c = Char.ofNat 0x308 || c = Char.ofNat 0x30A ||
  c = Char.ofNat 0x327

/-- Finite table of canonical decompositions (fully expanded), modelling
`unicodedata.normalize("NFKD", ·)` character by character. -/
def nfkdTable : List (Char × List Char) :=
  [ ('á', ['a', Char.ofNat 0x301]), ('Á', ['A', Char.ofNat 0x301]),
    ('é', ['e', Char.ofNat 0x301]), ('É', ['E', Char.ofNat 0x301]),
    ('í', ['i', Char.ofNat 0x301]), ('Í', ['I', Char.ofNat 0x301]),
    ('ó', ['o', Char.ofNat 0x301]), ('Ó', ['O', Char.ofNat 0x301]),
    ('ú', ['u', Char.ofNat 0x301]), ('Ú', ['U', Char.ofNat 0x301]),
    ('à', ['a', Char.ofNat 0x300]), ('è', ['e', Char.ofNat 0x300]),
    ('ñ', ['n', Char.ofNat 0x303]), ('Ñ', ['N', Char.ofNat 0x303]),
    ('ö', ['o', Char.ofNat 0x308]), ('ü', ['u', Char.ofNat 0x308]),
    ('å', ['a', Char.ofNat 0x30A]), ('Å', ['A', Char.ofNat 0x30A]),
    ('ç', ['c', Char.ofNat 0x327]), ('Ç', ['C', Char.ofNat 0x327]) ]

/-- NFKD decomposition of one character. -/
def nfkdChar (c : Char) : List Char :=
  match nfkdTable.lookup c with
  | some w => w
  | none => [c]

/-- Finite table of full case foldings (`str.casefold`), covering the
ASCII uppercase letters and the German sharp s. -/
def foldTable : List (Char × List Char) :=
  [ ('A', ['a']), ('B', ['b']), ('C', ['c']), ('D', ['d']), ('E', ['e']),
    ('F', ['f']), ('G', ['g']), ('H', ['h']), ('I', ['i']), ('J', ['j']),
    ('K', ['k']), ('L', ['l']), ('M', ['m']), ('N', ['n']), ('O', ['o']),
    ('P', ['p']), ('Q', ['q']), ('R', ['r']), ('S', ['s']), ('T', ['t']),
    ('U', ['u']), ('V', ['v']), ('W', ['w']), ('X', ['x']), ('Y', ['y']),
    ('Z', ['z']), ('ß', ['s', 's']) ]

/-- Case folding of one character. -/
def foldChar (c : Char) : List Char :=
  match foldTable.lookup c with
  | some w => w
  | none => [c]

/-- Collapse every maximal run of whitespace to a single ASCII space,
modelling `re.sub(r"\s+", " ", s)`.  The flag records whether the previous
input character belonged to a whitespace run already replaced. -/
def collapseWSAux : Bool → List Char → List Char
  | _, [] => []
  | inRun, c :: cs =>
    if isSpace c then
      if inRun then collapseWSAux true cs
      else ' ' :: collapseWSAux true cs
    else c :: collapseWSAux false cs

def collapseWS (l : List Char) : List Char := collapseWSAux false l

/-- Remove trailing whitespace. -/
def trimRight : List Char → List Char
  | [] => []
  | c :: cs =>
    let r := trimRight cs
    if isSpace c && r.isEmpty then [] else c :: r

/-- Remove leading and trailing whitespace, modelling `str.strip()`. -/
def trimWS (l : List Char) : List Char := trimRight (l.dropWhile isSpace)

/-- The normalizer `norm` of `pure_id_tools.py`:
NFKD-decompose, drop combining marks, collapse whitespace runs to one
space, strip, casefold — in exactly that order. -/
def norm (l : List Char) : List Char :=
  ((trimWS (collapseWS ((l.flatMap nfkdChar).filter (fun c => !isCombining c)))).flatMap foldChar)

/-- Structure of `collapseWS` output: every whitespace character is an ASCII
space, no two in a row; when `afterSp` is set the list may not start with a
space. -/
def okFrom : Bool → List Char → Bool
  | _, [] => true
  | afterSp, c :: cs =>
    if isSpace c then !afterSp && (c = ' ') && okFrom true cs
    else okFrom false cs

/-- Canonical spacing: every whitespace character is a single ASCII space
surrounded by non-space characters, none at either end.  The state is
0 at the start, 1 after a non-space, 2 right after a space. -/
def canonFrom : Nat → List Char → Bool
  | st, [] => st != 2
  | st, c :: cs =>
    if isSpace c then (st == 1) && (c = ' ') && canonFrom 2 cs
    else canonFrom 1 cs

theorem okFrom_collapseWSAux (l : List Char) :
    ∀ pre, okFrom pre (collapseWSAux pre l) = true := by
  induction l with
  | nil => intro pre; rfl
  | cons c cs ih =>
    intro pre
    by_cases hc : isSpace c = true
    · cases pre with
      | true => simpa [collapseWSAux, hc] using ih true
      | false => simpa [collapseWSAux, okFrom, hc] using ih true
    · simp only [collapseWSAux, hc, if_neg, Bool.false_eq_true, not_false_iff, ite_false]
      simpa [okFrom, hc] using ih false

theorem okFrom_dropWhile (l : List Char) (pre : Bool)
    (h : okFrom pre l = true) : okFrom true (l.dropWhile isSpace) = true := by
  cases l with
  | nil => rfl
  | cons c cs =>
    by_cases hc : isSpace c = true
    · simp only [okFrom, hc, if_true, Bool.and_eq_true, Bool.not_eq_true'] at h
      obtain ⟨⟨hpre, hce⟩, hcs⟩ := h
      rw [List.dropWhile_cons, hc, if_pos rfl]
      cases cs with
      | nil => rfl
      | cons d ds =>
        by_cases hd : isSpace d = true
        · simp [okFrom, hd] at hcs
        · rw [List.dropWhile_cons, if_neg hd]
          simpa [okFrom, hd] using hcs
    · rw [List.dropWhile_cons, if_neg hc]
      simpa [okFrom, hc] using h

theorem canon_of_canon0 (l : List Char) (hne : l ≠ [])
    (h : canonFrom 0 l = true) : canonFrom 2 l = true := by
  cases l with
  | nil => exact absurd rfl hne
  | cons c cs =>
    by_cases hc : isSpace c = true
    · simp [canonFrom, hc] at h
    · simpa [canonFrom, hc] using h

theorem canonFrom_ne_nil (l : List Char) (h : canonFrom 2 l = true) : l ≠ [] := by
  cases l with
  | nil => simp [canonFrom] at h
  | cons c cs => exact List.cons_ne_nil c cs

theorem canonFrom_trimRight (l : List Char) :
    ∀ s : Bool, okFrom s l = true →
      canonFrom (if s then 0 else 1) (trimRight l) = true := by
  induction l with
  | nil => intro s _; cases s <;> rfl
  | cons c cs ih =>
    intro s h
    by_cases hc : isSpace c = true
    · simp only [okFrom, hc, if_true, Bool.and_eq_true, Bool.not_eq_true'] at h
      obtain ⟨⟨hs, hce⟩, hcs⟩ := h
      subst hs
      have hr : canonFrom 0 (trimRight cs) = true := by simpa using ih true hcs
      rw [trimRight]
      by_cases hre : (trimRight cs).isEmpty = true
      · simp [hc, hre, canonFrom]
      · simp only [hc, hre, Bool.and_false, ite_false, Bool.true_and]
        have hne : trimRight cs ≠ [] := by
          cases heq : trimRight cs with
          | nil => rw [heq] at hre; simp at hre
          | cons d ds => exact List.cons_ne_nil d ds
        have h2 : canonFrom 2 (trimRight cs) = true := canon_of_canon0 _ hne hr
        simp [canonFrom, hc, hce, h2]
    · simp only [okFrom, hc, if_neg, Bool.false_eq_true, not_false_iff, ite_false] at h
      have hr : canonFrom 1 (trimRight cs) = true := by simpa using ih false h
      rw [trimRight]
      simp [hc, canonFrom, hr]

/-- The collapse-then-strip prefix of `norm` always produces a canonically
spaced string. -/
theorem canonFrom_trimWS_collapseWS (l : List Char) :
    canonFrom 0 (trimWS (collapseWS l)) = true := by
  have h1 := okFrom_collapseWSAux l false
  have h2 := okFrom_dropWhile (collapseWSAux false l) false h1
  simpa using canonFrom_trimRight _ true h2

theorem lookup_mem {α β : Type} [BEq α] [LawfulBEq α] (a : α) (b : β) :
    ∀ l : List (α × β), l.lookup a = some b → (a, b) ∈ l := by
  intro l
  induction l with
  | nil => intro h; simp [List.lookup] at h
  | cons p ps ih =>
    obtain ⟨k, v⟩ := p
    intro h
    rw [List.lookup] at h
    by_cases hk : (a == k) = true
    · have hk' : a = k := eq_of_beq hk
      rw [hk] at h
      simp at h
      subst hk'
      subst h
      exact List.mem_cons_self _ _
    · rw [Bool.not_eq_true] at hk
      rw [hk] at h
      exact List.mem_cons_of_mem _ (ih h)

theorem collapseWSAux_of_canon (l : List Char) :
    (∀ st, canonFrom st l = true → collapseWSAux false l = l) ∧
    (canonFrom 2 l = true → collapseWSAux true l = l) := by
  induction l with
  | nil => exact ⟨fun _ _ => rfl, fun _ => rfl⟩
  | cons c cs ih =>
    constructor
    · intro st h
      by_cases hc : isSpace c = true
      · simp only [canonFrom, hc, if_true, Bool.and_eq_true] at h
        obtain ⟨⟨hst, hce⟩, hcs⟩ := h
        have hcs' : collapseWSAux true cs = cs := ih.2 hcs
        have hce' : c = ' ' := by simpa using hce
        subst hce'
        rw [collapseWSAux]
        simp [hc, hcs']
      · have h1 : canonFrom 1 cs = true := by simpa [canonFrom, hc] using h
        simp [collapseWSAux, hc, ih.1 1 h1]
    · intro h
      by_cases hc : isSpace c = true
      · simp [canonFrom, hc] at h
      · have h1 : canonFrom 1 cs = true := by simpa [canonFrom, hc] using h
        simp [collapseWSAux, hc, ih.1 1 h1]

theorem collapseWS_of_canon (l : List Char) (h : canonFrom 0 l = true) :
    collapseWS l = l := (collapseWSAux_of_canon l).1 0 h

theorem trimRight_of_canon (l : List Char) :
    ∀ st, canonFrom st l = true → trimRight l = l := by
  induction l with
  | nil => intro st _; rfl
  | cons c cs ih =>
    intro st h
    by_cases hc : isSpace c = true
    · simp only [canonFrom, hc, if_true, Bool.and_eq_true] at h
      obtain ⟨⟨hst, hce⟩, hcs⟩ := h
      have hcs' : trimRight cs = cs := ih 2 hcs
      have hne : cs ≠ [] := canonFrom_ne_nil cs hcs
      rw [trimRight, hcs']
      cases cs with
      | nil => exact absurd rfl hne
      | cons d ds => simp [hc]
    · have h1 : canonFrom 1 cs = true := by simpa [canonFrom, hc] using h
      rw [trimRight, ih 1 h1]
      simp [hc]

theorem dropWhile_of_canon (l : List Char) (h : canonFrom 0 l = true) :
    l.dropWhile isSpace = l := by
  cases l with
  | nil => rfl
  | cons c cs =>
    by_cases hc : isSpace c = true
    · simp [canonFrom, hc] at h
    · rw [List.dropWhile_cons, if_neg hc]

theorem trimWS_of_canon (l : List Char) (h : canonFrom 0 l = true) :
    trimWS l = l := by
  rw [trimWS, dropWhile_of_canon l h, trimRight_of_canon l 0 h]

theorem flatMap_id_of_fixed (l : List Char) (f : Char → List Char)
    (h : ∀ c ∈ l, f c = [c]) : l.flatMap f = l := by
  induction l with
  | nil => rfl
  | cons c cs ih =>
    rw [List.flatMap_cons, h c (List.mem_cons_self c cs),
      ih (fun d hd => h d (List.mem_cons_of_mem c hd))]
    rfl

/-- Every character produced by the case-folding table is itself
fold-fixed, decomposition-fixed, non-combining and non-whitespace. -/
theorem foldTable_output_props :
    ∀ p ∈ foldTable, ∀ d ∈ p.2,
      foldChar d = [d] ∧ nfkdChar d = [d] ∧ isCombining d = false ∧
      isSpace d = false := by decide

theorem foldTable_output_ne : ∀ p ∈ foldTable, p.2 ≠ [] := by decide

theorem foldChar_fixed (c d : Char) (h : d ∈ foldChar c) : foldChar d = [d] := by
  rw [foldChar] at h
  cases hl : foldTable.lookup c with
  | none => rw [hl] at h; simp at h; subst h; rw [foldChar, hl]
  | some w =>
    rw [hl] at h
    exact (foldTable_output_props (c, w) (lookup_mem c w foldTable hl) d h).1

theorem foldChar_nfkd_fixed (c d : Char) (hc : nfkdChar c = [c])
    (h : d ∈ foldChar c) : nfkdChar d = [d] := by
  rw [foldChar] at h
  cases hl : foldTable.lookup c with
  | none => rw [hl] at h; simp at h; subst h; exact hc
  | some w =>
    rw [hl] at h
    exact (foldTable_output_props (c, w) (lookup_mem c w foldTable hl) d h).2.1

theorem foldChar_noncombining (c d : Char) (hc : isCombining c = false)
    (h : d ∈ foldChar c) : isCombining d = false := by
  rw [foldChar] at h
  cases hl : foldTable.lookup c with
  | none => rw [hl] at h; simp at h; subst h; exact hc
  | some w =>
    rw [hl] at h
    exact (foldTable_output_props (c, w) (lookup_mem c w foldTable hl) d h).2.2.1

theorem foldChar_nonspace (c d : Char) (hc : isSpace c = false)
    (h : d ∈ foldChar c) : isSpace d = false := by
  rw [foldChar] at h
  cases hl : foldTable.lookup c with
  | none => rw [hl] at h; simp at h; subst h; exact hc
  | some w =>
    rw [hl] at h
    exact (foldTable_output_props (c, w) (lookup_mem c w foldTable hl) d h).2.2.2

theorem foldChar_ne_nil (c : Char) : foldChar c ≠ [] := by
  rw [foldChar]
  cases hl : foldTable.lookup c with
  | none => simp
  | some w => exact foldTable_output_ne (c, w) (lookup_mem c w foldTable hl)

theorem nfkdTable_output_fixed :
    ∀ p ∈ nfkdTable, ∀ d ∈ p.2, nfkdChar d = [d] := by decide

theorem nfkdChar_fixed (c d : Char) (h : d ∈ nfkdChar c) : nfkdChar d = [d] := by
  rw [nfkdChar] at h
  cases hl : nfkdTable.lookup c with
  | none => rw [hl] at h; simp at h; subst h; rw [nfkdChar, hl]
  | some w =>
    rw [hl] at h
    exact nfkdTable_output_fixed (c, w) (lookup_mem c w nfkdTable hl) d h

theorem canonFrom_word_append (rest : List Char) (hr : canonFrom 1 rest = true) :
    ∀ w : List Char, w ≠ [] → (∀ d ∈ w, isSpace d = false) →
      ∀ st, canonFrom st (w ++ rest) = true := by
  intro w
  induction w with
  | nil => intro h _ _; exact absurd rfl h
  | cons d w' ih =>
    intro _ hns st
    have hd : isSpace d = false := hns d (List.mem_cons_self d w')
    cases w' with
    | nil => simpa [canonFrom, hd] using hr
    | cons e w'' =>
      have h1 : canonFrom 1 ((e :: w'') ++ rest) = true :=
        ih (List.cons_ne_nil e w'') (fun x hx => hns x (List.mem_cons_of_mem d hx)) 1
      simpa [canonFrom, hd] using h1

theorem canonFrom_flatMap_fold (l : List Char) :
    ∀ st, canonFrom st l = true → canonFrom st (l.flatMap foldChar) = true := by
  induction l with
  | nil => intro st h; simpa using h
  | cons c cs ih =>
    intro st h
    rw [List.flatMap_cons]
    by_cases hc : isSpace c = true
    · simp only [canonFrom, hc, if_true, Bool.and_eq_true] at h
      obtain ⟨⟨hst, hce⟩, hcs⟩ := h
      have hce' : c = ' ' := by simpa using hce
      subst hce'
      have h2 : canonFrom 2 (cs.flatMap foldChar) = true := ih 2 hcs
      have hfold : foldChar ' ' = [' '] := by decide
      have hst' : st = 1 := by simpa using hst
      subst hst'
      rw [hfold]
      simpa [canonFrom, hc] using h2
    · have h1 : canonFrom 1 cs = true := by simpa [canonFrom, hc] using h
      have hrest : canonFrom 1 (cs.flatMap foldChar) = true := ih 1 h1
      rw [Bool.not_eq_true] at hc
      exact canonFrom_word_append _ hrest (foldChar c) (foldChar_ne_nil c)
        (fun d hd => foldChar_nonspace c d hc hd) st

theorem mem_collapseWSAux (c : Char) :
    ∀ (l : List Char) (pre : Bool), c ∈ collapseWSAux pre l → c ∈ l ∨ c = ' ' := by
  intro l
  induction l with
  | nil => intro pre h; simp [collapseWSAux] at h
  | cons d ds ih =>
    intro pre h
    rw [collapseWSAux] at h
    by_cases hd : isSpace d = true
    · rw [if_pos hd] at h
      cases pre with
      | true =>
        rcases ih true (by simpa using h) with h' | h'
        · exact Or.inl (List.mem_cons_of_mem d h')
        · exact Or.inr h'
      | false =>
        rcases List.mem_cons.mp (by simpa using h) with h' | h'
        · exact Or.inr h'
        · rcases ih true h' with h'' | h''
          · exact Or.inl (List.mem_cons_of_mem d h'')
          · exact Or.inr h''
    · rw [if_neg hd] at h
      rcases List.mem_cons.mp h with h' | h'
      · subst h'; exact Or.inl (List.mem_cons_self _ _)
      · rcases ih false h' with h'' | h''
        · exact Or.inl (List.mem_cons_of_mem d h'')
        · exact Or.inr h''

theorem mem_trimRight (c : Char) : ∀ l : List Char, c ∈ trimRight l → c ∈ l := by
  intro l
  induction l with
  | nil => intro h; simp [trimRight] at h
  | cons d ds ih =>
    intro h
    simp only [trimRight] at h
    by_cases hg : (isSpace d && (trimRight ds).isEmpty) = true
    · rw [if_pos hg] at h; simp at h
    · rw [if_neg hg] at h
      rcases List.mem_cons.mp h with h' | h'
      · subst h'; exact List.mem_cons_self _ _
      · exact List.mem_cons_of_mem _ (ih h')

theorem mem_trimWS (c : Char) (l : List Char) (h : c ∈ trimWS l) : c ∈ l :=
  (List.dropWhile_sublist _).subset (mem_trimRight c _ h)

/-- Every character of a `norm` output is decomposition-fixed,
non-combining and fold-fixed. -/
theorem norm_chars (l : List Char) :
    ∀ d ∈ norm l, nfkdChar d = [d] ∧ isCombining d = false ∧ foldChar d = [d] := by
  intro d hd
  rw [norm] at hd
  rcases List.mem_flatMap.mp hd with ⟨c, hc, hdc⟩
  have hc2 : c ∈ collapseWS ((l.flatMap nfkdChar).filter (fun x => !isCombining x)) :=
    mem_trimWS c _ hc
  rcases mem_collapseWSAux c _ false hc2 with hc3 | hsp
  · have hcm := List.mem_filter.mp hc3
    rcases List.mem_flatMap.mp hcm.1 with ⟨a, _, hca⟩
    have hnf : nfkdChar c = [c] := nfkdChar_fixed a c hca
    have hnc : isCombining c = false := by simpa using hcm.2
    exact ⟨foldChar_nfkd_fixed c d hnf hdc, foldChar_noncombining c d hnc hdc,
      foldChar_fixed c d hdc⟩
  · subst hsp
    have hnf : nfkdChar ' ' = [' '] := by decide
    have hnc : isCombining ' ' = false := by decide
    exact ⟨foldChar_nfkd_fixed ' ' d hnf hdc, foldChar_noncombining ' ' d hnc hdc,
      foldChar_fixed ' ' d hdc⟩

/-- A `norm` output is canonically spaced. -/
theorem norm_canon (l : List Char) : canonFrom 0 (norm l) = true := by
  rw [norm]
  exact canonFrom_flatMap_fold _ 0 (canonFrom_trimWS_collapseWS _)

/-- C1: `norm` is idempotent — re-applying the
NFKD-decompose, strip-combining-marks, whitespace-collapse, trim, casefold
pipeline to one of its own outputs leaves the output unchanged. -/
theorem norm_idempotent (l : List Char) : norm (norm l) = norm l := by
  have hch := norm_chars l
  have hcanon := norm_canon l
  rw [norm, flatMap_id_of_fixed (norm l) nfkdChar (fun c hc => (hch c hc).1),
    List.filter_eq_self.mpr (fun c hc => by simpa using (hch c hc).2.1),
    collapseWS_of_canon (norm l) hcanon, trimWS_of_canon (norm l) hcanon]
  exact flatMap_id_of_fixed (norm l) foldChar (fun c hc => (hch c hc).2.2)

/-- C9: the concrete invariance examples of the specification —
`norm` identifies "José" with "Jose", collapses and strips the extra
whitespace of "  Jane   Doe ", and folds the case of the surname OBrien
spelled with an apostrophe, written here as character 39. -/
theorem norm_concrete_invariance :
    norm "José".data = norm "Jose".data ∧
    norm "  Jane   Doe ".data = norm "Jane Doe".data ∧
    norm ['O', Char.ofNat 39, 'B', 'r', 'i', 'e', 'n'] =
      norm ['o', Char.ofNat 39, 'b', 'r', 'i', 'e', 'n'] := by decide

/-- `n` occurs contiguously inside `h`, the mathematical reading of
Python's `n in h` on strings. -/
def Substr (n h : List Char) : Prop := ∃ pre post, h = pre ++ n ++ post

/-- Boolean prefix test. -/
def isPrefixList : List Char → List Char → Bool
  | [], _ => true
  | _ :: _, [] => false
  | c :: cs, d :: ds => c = d && isPrefixList cs ds

/-- Boolean substring test, modelling Python's `in` on strings. -/
def containsSub (n : List Char) : List Char → Bool
  | [] => isPrefixList n []
  | d :: hs => isPrefixList n (d :: hs) || containsSub n hs

theorem isPrefixList_iff (n : List Char) :
    ∀ h, isPrefixList n h = true ↔ ∃ post, h = n ++ post := by
  induction n with
  | nil =>
    intro h
    simp only [isPrefixList, List.nil_append, true_iff]
    exact ⟨h, rfl⟩
  | cons c cs ih =>
    intro h
    cases h with
    | nil => simp [isPrefixList]
    | cons d ds =>
      rw [isPrefixList]
      simp only [Bool.and_eq_true, decide_eq_true_eq, ih ds]
      constructor
      · rintro ⟨hcd, post, hp⟩
        exact ⟨post, by simp [hcd, hp]⟩
      · rintro ⟨post, hp⟩
        simp only [List.cons_append, List.cons.injEq] at hp
        exact ⟨hp.1.symm, post, hp.2⟩

theorem containsSub_iff (n : List Char) :
    ∀ h, containsSub n h = true ↔ Substr n h := by
  intro h
  induction h with
  | nil =>
    rw [containsSub, isPrefixList_iff]
    constructor
    · rintro ⟨post, hp⟩; exact ⟨[], post, by simpa using hp⟩
    · rintro ⟨pre, post, hp⟩
      have h3 : pre = [] ∧ n = [] ∧ post = [] := by
        simpa [List.append_eq_nil] using hp.symm
      exact ⟨post, by simp [h3.2.1, h3.2.2]⟩
  | cons d ds ih =>
    rw [containsSub]
    simp only [Bool.or_eq_true]
    rw [isPrefixList_iff, ih]
    constructor
    · rintro (⟨post, hp⟩ | ⟨pre, post, hp⟩)
      · exact ⟨[], post, by simpa using hp⟩
      · exact ⟨d :: pre, post, by simp [hp]⟩
    · rintro ⟨pre, post, hp⟩
      cases pre with
      | nil => exact Or.inl ⟨post, by simpa using hp⟩
      | cons e pres =>
        right
        simp only [List.cons_append, List.cons.injEq] at hp
        exact ⟨pres, post, hp.2⟩

/-- A loaded table: an ordered header of column names and the rows, one
string cell per column, positionally aligned with the header. -/
structure Table where
  header : List (List Char)
  rows : List (List (List Char))

/-- The cell of row `r` under column `col` (empty when the column is not in
the header), modelling the row-wise view of `df[col]` with string cells. -/
def cellVal (hdr : List (List Char)) (r : List (List Char)) (col : List Char) :
    List Char :=
  match hdr.findIdx? (fun c => c = col) with
  | some i => r.getD i []
  | none => []

/-- One row of `build_fullname_series`: first and last name joined by one
space then stripped when both name columns are present, else the full-name
column verbatim, else empty. -/
def build_fullname_row (hdr : List (List Char))
    (first_col last_col name_col : Option (List Char))
    (r : List (List Char)) : List Char :=
  match first_col, last_col with
  | some fc, some lc => trimWS (cellVal hdr r fc ++ ' ' :: cellVal hdr r lc)
  | _, _ =>
    match name_col with
    | some nc => cellVal hdr r nc
    | none => []

/-- The full-name series of a table, row by row. -/
def build_fullname_series (t : Table)
    (first_col last_col name_col : Option (List Char)) : List (List Char) :=
  t.rows.map (build_fullname_row t.header first_col last_col name_col)

/-- `count_distinct_pure_ids`: 0 without an identifier column, otherwise
the number of distinct identifier cells after stripping and dropping
empties. -/
def count_distinct_pure_ids (t : Table) (pure_col : Option (List Char)) : Nat :=
  match pure_col with
  | none => 0
  | some pc =>
    (((t.rows.map (fun r => trimWS (cellVal t.header r pc))).filter
      (fun s => !s.isEmpty)).dedup).length

/-- The row mask of `find_pure_ids_by_name`: under the substring policy both
normalized targets must occur in the row's normalized full name; under the
exact policy the normalized full name must equal the space-joined stripped
targets in either order. -/
def row_matches (hdr : List (List Char))
    (first_col last_col name_col : Option (List Char))
    (first last : List Char) (contains : Bool)
    (r : List (List Char)) : Bool :=
  let s := norm (build_fullname_row hdr first_col last_col name_col r)
  if contains then
    containsSub (norm first) s && containsSub (norm last) s
  else
    s = trimWS (norm first ++ ' ' :: norm last) ||
    s = trimWS (norm last ++ ' ' :: norm first)

/-- `find_pure_ids_by_name`: the distinct stripped non-empty identifier
cells of the rows selected by `row_matches` (empty without an identifier
column).  The resulting set is modelled as a duplicate-free list. -/
def find_pure_ids_by_name (t : Table)
    (pure_col first_col last_col name_col : Option (List Char))
    (first last : List Char) (contains : Bool) : List (List Char) :=
  match pure_col with
  | none => []
  | some pc =>
    ((((t.rows.filter
        (row_matches t.header first_col last_col name_col first last contains)).map
      (fun r => trimWS (cellVal t.header r pc))).filter
      (fun s => !s.isEmpty)).dedup)

theorem mem_find_iff (t : Table) (pc : List Char)
    (fc lc nc : Option (List Char)) (first last : List Char)
    (contains : Bool) (x : List Char) :
    x ∈ find_pure_ids_by_name t (some pc) fc lc nc first last contains ↔
      x ≠ [] ∧ ∃ r ∈ t.rows,
        row_matches t.header fc lc nc first last contains r = true ∧
        trimWS (cellVal t.header r pc) = x := by
  simp only [find_pure_ids_by_name, List.mem_dedup, List.mem_filter, List.mem_map,
    Bool.not_eq_true', List.isEmpty_eq_false]
  constructor
  · rintro ⟨⟨r, ⟨hr, hm⟩, hx⟩, hne⟩
    exact ⟨hne, r, hr, hm, hx⟩
  · rintro ⟨hne, r, hr, hm, hx⟩
    exact ⟨⟨r, ⟨hr, hm⟩, hx⟩, hne⟩

theorem find_nodup (t : Table)
    (pure_col fc lc nc : Option (List Char)) (first last : List Char)
    (contains : Bool) :
    (find_pure_ids_by_name t pure_col fc lc nc first last contains).Nodup := by
  cases pure_col with
  | none => exact List.nodup_nil
  | some pc => exact List.nodup_dedup _

theorem row_matches_substring (hdr : List (List Char))
    (fc lc nc : Option (List Char)) (first last : List Char)
    (r : List (List Char)) :
    row_matches hdr fc lc nc first last true r = true ↔
      Substr (norm first) (norm (build_fullname_row hdr fc lc nc r)) ∧
      Substr (norm last) (norm (build_fullname_row hdr fc lc nc r)) := by
  rw [row_matches]
  simp only [if_true, Bool.and_eq_true, containsSub_iff]

theorem row_matches_exact (hdr : List (List Char))
    (fc lc nc : Option (List Char)) (first last : List Char)
    (r : List (List Char)) :
    row_matches hdr fc lc nc first last false r = true ↔
      norm (build_fullname_row hdr fc lc nc r) =
        trimWS (norm first ++ ' ' :: norm last) ∨
      norm (build_fullname_row hdr fc lc nc r) =
        trimWS (norm last ++ ' ' :: norm first) := by
  rw [row_matches]
  simp only [Bool.false_eq_true, if_false, Bool.or_eq_true, decide_eq_true_eq]

/-- C4: for any policy, the result of `find_pure_ids_by_name` holds exactly
the distinct, stripped, non-empty identifier cells of the rows selected by
the row mask: membership is equivalent to arising from some matching row,
and the result list is duplicate-free. -/
theorem find_result_distinct_trimmed_nonempty (t : Table) (pc : List Char)
    (fc lc nc : Option (List Char)) (first last : List Char) (contains : Bool) :
    (∀ x, x ∈ find_pure_ids_by_name t (some pc) fc lc nc first last contains ↔
      x ≠ [] ∧ ∃ r ∈ t.rows,
        row_matches t.header fc lc nc first last contains r = true ∧
        trimWS (cellVal t.header r pc) = x) ∧
    (find_pure_ids_by_name t (some pc) fc lc nc first last contains).Nodup :=
  ⟨fun x => mem_find_iff t pc fc lc nc first last contains x,
   find_nodup t (some pc) fc lc nc first last contains⟩

/-- C2: under the substring policy, an identifier is returned exactly when
it is the stripped non-empty identifier cell of a row whose normalized full
name contains the normalized target first name as a substring and the
normalized target last name as a substring, the two occurrences checked
independently. -/
theorem substring_policy_characterization (t : Table) (pc : List Char)
    (fc lc nc : Option (List Char)) (first last x : List Char) :
    x ∈ find_pure_ids_by_name t (some pc) fc lc nc first last true ↔
      x ≠ [] ∧ ∃ r ∈ t.rows,
        Substr (norm first) (norm (build_fullname_row t.header fc lc nc r)) ∧
        Substr (norm last) (norm (build_fullname_row t.header fc lc nc r)) ∧
        trimWS (cellVal t.header r pc) = x := by
  rw [mem_find_iff]
  constructor
  · rintro ⟨hne, r, hr, hm, hx⟩
    have h2 := (row_matches_substring t.header fc lc nc first last r).mp hm
    exact ⟨hne, r, hr, h2.1, h2.2, hx⟩
  · rintro ⟨hne, r, hr, h1, h2, hx⟩
    exact ⟨hne, r, hr,
      (row_matches_substring t.header fc lc nc first last r).mpr ⟨h1, h2⟩, hx⟩

/-- A two-row table with a full-name column, exercising the exact policy:
"Doe Jane" written surname-first and the near-miss "Jane Doering". -/
def exactExampleTable : Table :=
  ⟨["Pure ID".data, "Name".data],
   [["P1".data, "Doe Jane".data], ["P2".data, "Jane Doering".data]]⟩

/-- C3: under the exact policy an identifier is returned exactly when it
comes from a row whose normalized full name equals the normalized targets
joined by one space and stripped, in either order; concretely, "Doe Jane"
matches target Jane/Doe via the swapped order while "Jane Doering" does
not. -/
theorem exact_policy_characterization :
    (∀ (t : Table) (pc : List Char) (fc lc nc : Option (List Char))
      (first last x : List Char),
      x ∈ find_pure_ids_by_name t (some pc) fc lc nc first last false ↔
        x ≠ [] ∧ ∃ r ∈ t.rows,
          (norm (build_fullname_row t.header fc lc nc r) =
            trimWS (norm first ++ ' ' :: norm last) ∨
           norm (build_fullname_row t.header fc lc nc r) =
            trimWS (norm last ++ ' ' :: norm first)) ∧
          trimWS (cellVal t.header r pc) = x) ∧
    find_pure_ids_by_name exactExampleTable (some "Pure ID".data) none none
      (some "Name".data) "Jane".data "Doe".data false = ["P1".data] := by
  constructor
  · intro t pc fc lc nc first last x
    rw [mem_find_iff]
    constructor
    · rintro ⟨hne, r, hr, hm, hx⟩
      exact ⟨hne, r, hr, (row_matches_exact t.header fc lc nc first last r).mp hm, hx⟩
    · rintro ⟨hne, r, hr, hm, hx⟩
      exact ⟨hne, r, hr, (row_matches_exact t.header fc lc nc first last r).mpr hm, hx⟩
  · decide

/-- The identifier-column example of the specification:
values "P1", " P2", "", "P1", "  ". -/
def countExampleTable : Table :=
  ⟨["id".data],
   [["P1".data], [" P2".data], ["".data], ["P1".data], ["  ".data]]⟩

/-- C6: `count_distinct_pure_ids` is 0 without an identifier column and
otherwise counts the distinct stripped non-empty identifier cells; on the
example column "P1", " P2", "", "P1", "  " it returns 2. -/
theorem count_distinct_characterization :
    (∀ t : Table, count_distinct_pure_ids t none = 0) ∧
    (∀ (t : Table) (pc : List Char),
      count_distinct_pure_ids t (some pc) =
        ((t.rows.map (fun r => trimWS (cellVal t.header r pc))).filter
          (fun s => !s.isEmpty)).toFinset.card) ∧
    count_distinct_pure_ids countExampleTable (some "id".data) = 2 := by
  refine ⟨fun t => rfl, fun t pc => ?_, by decide⟩
  simp only [count_distinct_pure_ids]
  exact (List.card_toFinset _).symm

/-- C7: with the identifier role unresolved, every table and every target
name pair give a zero count and an empty identifier set; both functions are
total, so no error is raised. -/
theorem unresolved_identifier_degrades :
    ∀ (t : Table) (fc lc nc : Option (List Char)) (first last : List Char)
      (contains : Bool),
      count_distinct_pure_ids t none = 0 ∧
      find_pure_ids_by_name t none fc lc nc first last contains = [] :=
  fun _ _ _ _ _ _ _ => ⟨rfl, rfl⟩

theorem canonFrom_append_sep (b : List Char) (hb2 : canonFrom 2 b = true) :
    ∀ (a : List Char) (st : Nat), canonFrom st a = true →
      canonFrom st (a ++ ' ' :: b) = true ∨ a = [] := by
  intro a
  induction a with
  | nil => intro st _; exact Or.inr rfl
  | cons d a' ih =>
    intro st h
    by_cases hd : isSpace d = true
    · simp only [canonFrom, hd, if_true, Bool.and_eq_true] at h
      obtain ⟨⟨hst, hde⟩, ha'⟩ := h
      have hne : a' ≠ [] := canonFrom_ne_nil a' ha'
      rcases ih 2 ha' with h2 | h2
      · left
        have hde' : d = ' ' := by simpa using hde
        have hst' : st = 1 := by simpa using hst
        subst hde'; subst hst'
        simpa [canonFrom, hd] using h2
      · exact absurd h2 hne
    · have h1 : canonFrom 1 a' = true := by simpa [canonFrom, hd] using h
      left
      rcases ih 1 h1 with h2 | h2
      · simpa [canonFrom, hd] using h2
      · subst h2
        simp [canonFrom, hd, hb2, show isSpace ' ' = true from rfl]

theorem trimWS_cons_space (b : List Char) (hb : canonFrom 0 b = true) :
    trimWS (' ' :: b) = b := by
  rw [trimWS, List.dropWhile_cons]
  simp only [show isSpace ' ' = true from rfl, if_true]
  rw [dropWhile_of_canon b hb, trimRight_of_canon b 0 hb]

theorem trimRight_append_space :
    ∀ l : List Char, trimRight (l ++ [' ']) = trimRight l := by
  intro l
  induction l with
  | nil => rfl
  | cons c cs ih => simp only [List.cons_append, trimRight, List.append_eq, ih]

theorem substr_refl (l : List Char) : Substr l l := ⟨[], [], by simp⟩

theorem substr_nil (h : List Char) : Substr [] h := ⟨[], h, by simp⟩

/-- A stripped single-space join of two canonically spaced strings contains
each of the two strings as a substring. -/
theorem substr_join (a b : List Char) (ha : canonFrom 0 a = true)
    (hb : canonFrom 0 b = true) :
    Substr a (trimWS (a ++ ' ' :: b)) ∧ Substr b (trimWS (a ++ ' ' :: b)) := by
  by_cases hae : a = []
  · subst hae
    rw [List.nil_append, trimWS_cons_space b hb]
    exact ⟨substr_nil b, substr_refl b⟩
  · by_cases hbe : b = []
    · subst hbe
      have hd : trimWS (a ++ [' ']) = a := by
        cases a with
        | nil => exact absurd rfl hae
        | cons c a' =>
          have hc : isSpace c = false := by
            by_contra hcc
            rw [Bool.not_eq_false] at hcc
            simp [canonFrom, hcc] at ha
          rw [trimWS, List.cons_append, List.dropWhile_cons,
            if_neg (by simp [hc]), ← List.cons_append, trimRight_append_space,
            trimRight_of_canon _ 0 ha]
      rw [show a ++ ' ' :: ([] : List Char) = a ++ [' '] from rfl, hd]
      exact ⟨substr_refl a, substr_nil a⟩
    · have hb2 : canonFrom 2 b = true := canon_of_canon0 b hbe hb
      rcases canonFrom_append_sep b hb2 a 0 ha with hcan | hne
      · rw [trimWS_of_canon _ hcan]
        exact ⟨⟨[], ' ' :: b, by simp⟩, ⟨a ++ [' '], [], by simp⟩⟩
      · exact absurd hne hae

theorem row_matches_false_imp_true (hdr : List (List Char))
    (fc lc nc : Option (List Char)) (first last : List Char)
    (r : List (List Char))
    (h : row_matches hdr fc lc nc first last false r = true) :
    row_matches hdr fc lc nc first last true r = true := by
  rw [row_matches_exact] at h
  rw [row_matches_substring]
  rcases h with h | h
  · rw [h]
    exact substr_join (norm first) (norm last) (norm_canon first) (norm_canon last)
  · rw [h]
    have hj := substr_join (norm last) (norm first) (norm_canon last) (norm_canon first)
    exact ⟨hj.2, hj.1⟩

/-- C10: every identifier returned under the exact policy is also returned
under the substring policy on the same inputs. -/
theorem exact_subset_substring (t : Table)
    (pure_col fc lc nc : Option (List Char)) (first last x : List Char)
    (h : x ∈ find_pure_ids_by_name t pure_col fc lc nc first last false) :
    x ∈ find_pure_ids_by_name t pure_col fc lc nc first last true := by
  cases pure_col with
  | none => simp [find_pure_ids_by_name] at h
  | some pc =>
    rw [mem_find_iff] at h ⊢
    obtain ⟨hne, r, hr, hm, hx⟩ := h
    exact ⟨hne, r, hr, row_matches_false_imp_true _ _ _ _ _ _ r hm, hx⟩

/-- Closed instance of `exact_subset_substring`: on the concrete example
table the identifier found under the exact policy is also found under the
substring policy. -/
theorem exact_subset_substring_witness :
    "P1".data ∈ find_pure_ids_by_name exactExampleTable (some "Pure ID".data)
      none none (some "Name".data) "Jane".data "Doe".data false ∧
    "P1".data ∈ find_pure_ids_by_name exactExampleTable (some "Pure ID".data)
      none none (some "Name".data) "Jane".data "Doe".data true :=
  ⟨by decide, exact_subset_substring exactExampleTable (some "Pure ID".data)
    none none (some "Name".data) "Jane".data "Doe".data "P1".data (by decide)⟩

/-- Abstract syntax of the regular-expression fragment used by
`detect_columns`: literals, character classes, concatenation, an optional
group `(?:...)?`, a starred character class (`.*`, `\s*`), the word
boundary `\b` and the anchors `^` and `$`. -/
inductive RE : Type
  | eps : RE
  | lit : Char → RE
  | cls : (Char → Bool) → RE
  | cat : RE → RE → RE
  | opt : RE → RE
  | starC : (Char → Bool) → RE
  | bnd : RE
  | bol : RE
  | eol : RE

/-- A word character in the sense of `\b` ( `[A-Za-z0-9_]` ). -/
def isWordChar (c : Char) : Bool :=
  ('a' ≤ c && c ≤ 'z') || ('A' ≤ c && c ≤ 'Z') ||
  ('0' ≤ c && c ≤ '9') || c = '_'

/-- `\b` holds between the previous character and the rest of the input. -/
def atBoundary (prev : Option Char) (s : List Char) : Bool :=
  (match prev with | none => false | some c => isWordChar c) !=
  (match s with | [] => false | d :: _ => isWordChar d)

/-- ASCII lowercasing of one character, realising `re.IGNORECASE` against
the all-lowercase pattern literals of `detect_columns`. -/
def lowerChar (c : Char) : Char :=
  if 'A' ≤ c && c ≤ 'Z' then Char.ofNat (c.toNat + 32) else c

/-- Backtracking loop for a starred character class: try the continuation
at every number of consumed class characters. -/
def starLoop (p : Char → Bool) (prev : Option Char) :
    List Char → (Option Char → List Char → Bool) → Bool
  | s, k =>
    k prev s ||
      match s with
      | [] => false
      | d :: ds => p d && starLoop p (some d) ds k

/-- Complete backtracking matcher: `reMatch r prev s k` decides whether a
prefix of `s` matches `r` (with `prev` the character before `s`, for `\b`
and `^`) such that the continuation `k` accepts the remainder. -/
def reMatch : RE → Option Char → List Char → (Option Char → List Char → Bool) → Bool
  | .eps, prev, s, k => k prev s
  | .lit c, _, s, k =>
    match s with
    | [] => false
    | d :: ds => lowerChar d = c && k (some d) ds
  | .cls p, _, s, k =>
    match s with
    | [] => false
    | d :: ds => p d && k (some d) ds
  | .cat r1 r2, prev, s, k => reMatch r1 prev s (fun p' s' => reMatch r2 p' s' k)
  | .opt r, prev, s, k => k prev s || reMatch r prev s k
  | .starC p, prev, s, k => starLoop p prev s k
  | .bnd, prev, s, k => atBoundary prev s && k prev s
  | .bol, prev, s, k => prev.isNone && k prev s
  | .eol, prev, s, k => s.isEmpty && k prev s

/-- Try a match at every position, left to right. -/
def searchFrom (r : RE) : Option Char → List Char → Bool
  | prev, [] => reMatch r prev [] (fun _ _ => true)
  | prev, d :: ds =>
    reMatch r prev (d :: ds) (fun _ _ => true) || searchFrom r (some d) ds

/-- `rx.search(s)` truthiness for a pattern compiled with `re.IGNORECASE`. -/
def reSearch (r : RE) (s : List Char) : Bool := searchFrom r none s

/-- Concatenation of case-insensitive literal characters. -/
def rstr : List Char → RE
  | [] => .eps
  | c :: cs => .cat (.lit c) (rstr cs)

/-- The class `.` (anything but a newline), starred. -/
def dotStar : RE := .starC (fun c => c != '\n')

/-- The class `\s`, starred. -/
def wsStar : RE := .starC isSpace

/-- `\bw\b`. -/
def wordPat (w : List Char) : RE := .cat .bnd (.cat (rstr w) .bnd)

/-- `\bw1\b.*\bw2\b`. -/
def wordGapWord (w1 w2 : List Char) : RE :=
  .cat (wordPat w1) (.cat dotStar (wordPat w2))

/-- `^r$`. -/
def exactPat (r : RE) : RE := .cat .bol (.cat r .eol)

/-- The optional separator class `[_\s-]?`. -/
def sepOpt : RE := .opt (.cls (fun c => c = '_' || isSpace c || c = '-'))

/-- The identifier-column rules of `detect_columns`, in order. -/
def purePatterns : List RE :=
  [ wordGapWord "pure".data "id".data,
    wordGapWord "id".data "pure".data,
    exactPat (.cat (rstr "pure".data) (.cat sepOpt (rstr "id".data))),
    exactPat (.cat (rstr "person".data) (.cat sepOpt (rstr "id".data))),
    exactPat (rstr "pure person id".data) ]

/-- The first-name rules of `detect_columns`, in order. -/
def firstPatterns : List RE :=
  [ exactPat (.cat (rstr "first".data)
      (.cat wsStar (.cat (rstr "name".data) (.opt (rstr "(s)".data))))),
    wordGapWord "given".data "name".data,
    wordPat "forename".data,
    .cat .bnd (.cat (rstr "preferred".data)
      (.cat wsStar (.cat (rstr "name".data) .bnd))) ]

/-- The last-name rules of `detect_columns`, in order. -/
def lastPatterns : List RE :=
  [ exactPat (.cat (rstr "last".data)
      (.cat wsStar (.cat (rstr "name".data) (.opt (rstr "(s)".data))))),
    wordGapWord "family".data "name".data,
    wordPat "surname".data ]

/-- The full-name rules of `detect_columns`, in order. -/
def namePatterns : List RE :=
  [ exactPat (rstr "name".data),
    wordGapWord "person".data "name".data,
    .cat .bnd (.cat (rstr "display".data) (.cat wsStar (.cat (rstr "name".data) .bnd))),
    .cat .bnd (.cat (rstr "full".data) (.cat wsStar (.cat (rstr "name".data) .bnd))) ]

/-- `pick_column`: try each pattern in order and return the first header
name, in header order, matched by the first pattern that matches any
header. -/
def pick_column (cols : List (List Char)) : List RE → Option (List Char)
  | [] => none
  | p :: ps =>
    match cols.find? (fun c => reSearch p c) with
    | some c => some c
    | none => pick_column cols ps

/-- `detect_columns` over a header: the identifier, first-name, last-name
and full-name columns resolved by their ordered rule lists. -/
def detect_columns (cols : List (List Char)) :
    Option (List Char) × Option (List Char) × Option (List Char) ×
      Option (List Char) :=
  (pick_column cols purePatterns, pick_column cols firstPatterns,
   pick_column cols lastPatterns, pick_column cols namePatterns)

theorem find?_first_iff (p : List Char → Bool) :
    ∀ (cols : List (List Char)) (c : List Char),
      cols.find? p = some c ↔
        ∃ cs1 cs2, cols = cs1 ++ c :: cs2 ∧ p c = true ∧
          ∀ col ∈ cs1, p col = false := by
  intro cols
  induction cols with
  | nil => intro c; simp
  | cons d ds ih =>
    intro c
    by_cases hd : p d = true
    · rw [List.find?_cons_of_pos _ hd]
      constructor
      · intro h
        injection h with h
        subst h
        exact ⟨[], ds, rfl, hd, by simp⟩
      · rintro ⟨cs1, cs2, hcols, hpc, hprev⟩
        cases cs1 with
        | nil =>
          simp only [List.nil_append, List.cons.injEq] at hcols
          rw [hcols.1]
        | cons e es =>
          simp only [List.cons_append, List.cons.injEq] at hcols
          have he := hprev e (List.mem_cons_self e es)
          rw [← hcols.1] at he
          rw [he] at hd
          exact absurd hd (by simp)
    · rw [List.find?_cons_of_neg _ (by simpa using hd), ih c]
      constructor
      · rintro ⟨cs1, cs2, hcols, hpc, hprev⟩
        refine ⟨d :: cs1, cs2, by simp [hcols], hpc, ?_⟩
        intro col hcol
        rcases List.mem_cons.mp hcol with h | h
        · subst h; simpa using hd
        · exact hprev col h
      · rintro ⟨cs1, cs2, hcols, hpc, hprev⟩
        cases cs1 with
        | nil =>
          simp only [List.nil_append, List.cons.injEq] at hcols
          rw [hcols.1] at hd
          exact absurd hpc hd
        | cons e es =>
          simp only [List.cons_append, List.cons.injEq] at hcols
          exact ⟨es, cs2, hcols.2, hpc,
            fun col hcol => hprev col (List.mem_cons_of_mem e hcol)⟩

theorem pick_column_eq_some_iff (cols : List (List Char)) :
    ∀ (pats : List RE) (c : List Char),
      pick_column cols pats = some c ↔
        ∃ ps1 q ps2, pats = ps1 ++ q :: ps2 ∧
          (∀ q' ∈ ps1, ∀ col ∈ cols, reSearch q' col = false) ∧
          reSearch q c = true ∧
          ∃ cs1 cs2, cols = cs1 ++ c :: cs2 ∧
            ∀ col ∈ cs1, reSearch q col = false := by
  intro pats
  induction pats with
  | nil =>
    intro c
    simp only [pick_column]
    constructor
    · intro h; exact absurd h (by simp)
    · rintro ⟨ps1, q, ps2, hpats, _⟩
      exact absurd hpats (by simp)
  | cons p ps ih =>
    intro c
    cases hf : cols.find? (fun col => reSearch p col) with
    | some d =>
      have hpick : pick_column cols (p :: ps) = some d := by rw [pick_column, hf]
      rw [hpick]
      constructor
      · intro h
        injection h with h
        subst h
        obtain ⟨cs1, cs2, hcols, hpc, hprev⟩ := (find?_first_iff _ cols d).mp hf
        exact ⟨[], p, ps, rfl, by simp, hpc, cs1, cs2, hcols, hprev⟩
      · rintro ⟨ps1, q, ps2, hpats, hnone, hqc, cs1, cs2, hcols, hprev⟩
        cases ps1 with
        | nil =>
          simp only [List.nil_append, List.cons.injEq] at hpats
          rw [← hpats.1] at hqc hprev
          have hc : cols.find? (fun col => reSearch p col) = some c :=
            (find?_first_iff _ cols c).mpr ⟨cs1, cs2, hcols, hqc, hprev⟩
          rw [hf] at hc
          exact hc
        | cons q' ps1' =>
          simp only [List.cons_append, List.cons.injEq] at hpats
          have hds := List.find?_some hf
          have hdm := List.mem_of_find?_eq_some hf
          have hq' := hnone q' (List.mem_cons_self q' ps1') d hdm
          rw [← hpats.1] at hq'
          rw [hq'] at hds
          exact absurd hds (by simp)
    | none =>
      have hpick : pick_column cols (p :: ps) = pick_column cols ps := by
        rw [pick_column, hf]
      have hnoneAll : ∀ col ∈ cols, reSearch p col = false := by
        intro col hcol
        have := List.find?_eq_none.mp hf col hcol
        simpa using this
      rw [hpick, ih c]
      constructor
      · rintro ⟨ps1, q, ps2, hpats, hn, hqc, rest⟩
        refine ⟨p :: ps1, q, ps2, by simp [hpats], ?_, hqc, rest⟩
        intro q' hq' col hcol
        rcases List.mem_cons.mp hq' with h | h
        · subst h; exact hnoneAll col hcol
        · exact hn q' h col hcol
      · rintro ⟨ps1, q, ps2, hpats, hn, hqc, cs1, cs2, hcols, hprev⟩
        cases ps1 with
        | nil =>
          simp only [List.nil_append, List.cons.injEq] at hpats
          have hcm : c ∈ cols := by
            rw [hcols]
            exact List.mem_append_right _ (List.mem_cons_self _ _)
          have hall := hnoneAll c hcm
          rw [hpats.1] at hall
          rw [hall] at hqc
          exact absurd hqc (by simp)
        | cons e es =>
          simp only [List.cons_append, List.cons.injEq] at hpats
          exact ⟨es, q, ps2, hpats.2,
            fun q' hq' col hcol => hn q' (List.mem_cons_of_mem e hq') col hcol,
            hqc, cs1, cs2, hcols, hprev⟩

theorem pick_column_eq_none_iff (cols : List (List Char)) :
    ∀ pats : List RE,
      pick_column cols pats = none ↔
        ∀ p ∈ pats, ∀ col ∈ cols, reSearch p col = false := by
  intro pats
  induction pats with
  | nil => simp [pick_column]
  | cons p ps ih =>
    cases hf : cols.find? (fun col => reSearch p col) with
    | some d =>
      have hpick : pick_column cols (p :: ps) = some d := by rw [pick_column, hf]
      rw [hpick]
      simp only [false_iff, reduceCtorEq]
      intro hall
      have hds := List.find?_some hf
      have hdm := List.mem_of_find?_eq_some hf
      have hpd := hall p (List.mem_cons_self p ps) d hdm
      rw [hpd] at hds
      exact absurd hds (by simp)
    | none =>
      have hpick : pick_column cols (p :: ps) = pick_column cols ps := by
        rw [pick_column, hf]
      have hnoneAll : ∀ col ∈ cols, reSearch p col = false := by
        intro col hcol
        have := List.find?_eq_none.mp hf col hcol
        simpa using this
      rw [hpick, ih]
      constructor
      · intro hall q hq col hcol
        rcases List.mem_cons.mp hq with h | h
        · subst h; exact hnoneAll col hcol
        · exact hall q h col hcol
      · intro hall q hq col hcol
        exact hall q (List.mem_cons_of_mem p hq) col hcol

/-- C5: column classification is ordered, case-insensitive,
first-match-wins evaluation — a role resolves to column `c` exactly when
some rule matches `c`, every earlier rule matches no header, and every
earlier header fails that rule; the role is absent exactly when no rule
matches any header.  On the header
["Pure ID", "First name(s)", "Last name", "Other"] the identifier, first
and last roles resolve to the first three columns and no full-name column
is found. -/
theorem classify_first_match_wins :
    (∀ (cols : List (List Char)) (pats : List RE) (c : List Char),
      pick_column cols pats = some c ↔
        ∃ ps1 q ps2, pats = ps1 ++ q :: ps2 ∧
          (∀ q' ∈ ps1, ∀ col ∈ cols, reSearch q' col = false) ∧
          reSearch q c = true ∧
          ∃ cs1 cs2, cols = cs1 ++ c :: cs2 ∧
            ∀ col ∈ cs1, reSearch q col = false) ∧
    (∀ (cols : List (List Char)) (pats : List RE),
      pick_column cols pats = none ↔
        ∀ p ∈ pats, ∀ col ∈ cols, reSearch p col = false) ∧
    detect_columns
        ["Pure ID".data, "First name(s)".data, "Last name".data, "Other".data] =
      (some "Pure ID".data, some "First name(s)".data, some "Last name".data,
        none) :=
  ⟨fun cols pats c => pick_column_eq_some_iff cols pats c,
   fun cols pats => pick_column_eq_none_iff cols pats,
   by decide⟩

/-- The replacement character U+FFFD. -/
def replChar : Char := Char.ofNat 0xFFFD

/-- A UTF-8 continuation byte. -/
def contByte (b : Nat) : Bool := 0x80 ≤ b && b ≤ 0xBF

/-- Valid first continuation byte after a three-byte lead (the E0/ED rows
exclude overlong encodings and surrogates). -/
def cont3ok (b b2 : Nat) : Bool :=
  if b == 0xE0 then 0xA0 ≤ b2 && b2 ≤ 0xBF
  else if b == 0xED then 0x80 ≤ b2 && b2 ≤ 0x9F
  else contByte b2

/-- Valid first continuation byte after a four-byte lead (the F0/F4 rows
exclude overlong encodings and out-of-range code points). -/
def cont4ok (b b2 : Nat) : Bool :=
  if b == 0xF0 then 0x90 ≤ b2 && b2 ≤ 0xBF
  else if b == 0xF4 then 0x80 ≤ b2 && b2 ≤ 0x8F
  else contByte b2

/-- Decode the sequence led by byte `b` followed by `bs`: the decoded
character — U+FFFD for an invalid or truncated sequence — and the number
of continuation bytes consumed (the maximal valid subpart on error). -/
def decodeSeq (b : Nat) (bs : List Nat) : Char × Nat :=
  if b < 0x80 then (Char.ofNat b, 0)
  else if 0xC2 ≤ b && b ≤ 0xDF then
    match bs with
    | b2 :: _ =>
      if contByte b2 then (Char.ofNat ((b - 0xC0) * 64 + (b2 - 0x80)), 1)
      else (replChar, 0)
    | [] => (replChar, 0)
  else if 0xE0 ≤ b && b ≤ 0xEF then
    match bs with
    | b2 :: rest2 =>
      if cont3ok b b2 then
        match rest2 with
        | b3 :: _ =>
          if contByte b3 then
            (Char.ofNat ((b - 0xE0) * 4096 + (b2 - 0x80) * 64 + (b3 - 0x80)), 2)
          else (replChar, 1)
        | [] => (replChar, 1)
      else (replChar, 0)
    | [] => (replChar, 0)
  else if 0xF0 ≤ b && b ≤ 0xF4 then
    match bs with
    | b2 :: rest2 =>
      if cont4ok b b2 then
        match rest2 with
        | b3 :: rest3 =>
          if contByte b3 then
            match rest3 with
            | b4 :: _ =>
              if contByte b4 then
                (Char.ofNat ((b - 0xF0) * 262144 + (b2 - 0x80) * 4096 +
                  (b3 - 0x80) * 64 + (b4 - 0x80)), 3)
              else (replChar, 2)
            | [] => (replChar, 2)
          else (replChar, 1)
        | [] => (replChar, 1)
      else (replChar, 0)
    | [] => (replChar, 0)
  else (replChar, 0)

/-- Modelled from the spec: `path.read_bytes().decode("utf-8",
errors="replace")` — the Python codec itself is library code not in the
repository.  Total UTF-8 decoding in which every invalid sequence becomes
U+FFFD. -/
def decodeUtf8Replace : List Nat → List Char
  | [] => []
  | b :: bs =>
    (decodeSeq b bs).1 :: decodeUtf8Replace (bs.drop (decodeSeq b bs).2)
termination_by l => l.length
decreasing_by
  simp only [List.length_cons, List.length_drop]
  omega

/-- Modelled from the spec: the lenient delimiter parse of the last-resort
path (pandas is library code not in the repository) — newline-separated
records of comma-separated fields, the first record the header, and any
record that does not split into the header's column count skipped. -/
def parseLenient (text : List Char) : Table :=
  match (text.splitOn '\n').map (fun line => line.splitOn ',') with
  | [] => ⟨[], []⟩
  | hdr :: rest => ⟨hdr, rest.filter (fun r => r.length == hdr.length)⟩

/-- Every row is exactly as wide as the header. -/
def wellFormedTable (t : Table) : Prop :=
  ∀ r ∈ t.rows, r.length = t.header.length

/-- `read_csv_any_encoding` at the parser boundary: each (strategy,
encoding) attempt is abstracted as an optional already-parsed table (the
pandas calls are library code); the loader returns the first success and
otherwise the guaranteed last resort — UTF-8-with-replacement decode plus
lenient parse. -/
def read_csv_any_encoding (attempts : List (Option Table)) (bytes : List Nat) :
    Table :=
  match attempts.filterMap id with
  | t :: _ => t
  | [] => parseLenient (decodeUtf8Replace bytes)

theorem parseLenient_wellFormed (text : List Char) :
    wellFormedTable (parseLenient text) := by
  cases hm : (text.splitOn '\n').map (fun line => line.splitOn ',') with
  | nil =>
    have hres : parseLenient text = ⟨[], []⟩ := by rw [parseLenient, hm]
    rw [hres]
    intro r hr
    simp at hr
  | cons hdr rest =>
    have hres : parseLenient text =
        ⟨hdr, rest.filter (fun r => r.length == hdr.length)⟩ := by
      rw [parseLenient, hm]
    rw [hres]
    intro r hr
    have hlen := (List.mem_filter.mp hr).2
    simpa using hlen

/-- C8: the last-resort path of the loader is total and structurally
sound — for every byte sequence it produces a well-formed table (each row
as wide as the header); when every (strategy, encoding) attempt fails the
loader returns exactly that table, and whenever each successful attempt is
well-formed so is the loader's result, leaving the unparsable-file error
unreachable. -/
theorem loader_last_resort_total (attempts : List (Option Table))
    (bytes : List Nat)
    (hok : ∀ t : Table, some t ∈ attempts → wellFormedTable t) :
    wellFormedTable (parseLenient (decodeUtf8Replace bytes)) ∧
    wellFormedTable (read_csv_any_encoding attempts bytes) ∧
    ((∀ a ∈ attempts, a = none) →
      read_csv_any_encoding attempts bytes =
        parseLenient (decodeUtf8Replace bytes)) := by
  refine ⟨parseLenient_wellFormed _, ?_, ?_⟩
  · cases hf : attempts.filterMap id with
    | nil =>
      have hres : read_csv_any_encoding attempts bytes =
          parseLenient (decodeUtf8Replace bytes) := by
        rw [read_csv_any_encoding, hf]
      rw [hres]
      exact parseLenient_wellFormed _
    | cons t ts =>
      have hres : read_csv_any_encoding attempts bytes = t := by
        rw [read_csv_any_encoding, hf]
      rw [hres]
      have ht : t ∈ attempts.filterMap id := by
        rw [hf]; exact List.mem_cons_self t ts
      rcases List.mem_filterMap.mp ht with ⟨a, ha, hat⟩
      cases a with
      | none => simp at hat
      | some u =>
        have hut : u = t := by simpa using hat
        rw [← hut]
        exact hok u ha
  · intro hall
    have hf : attempts.filterMap id = [] :=
      List.filterMap_eq_nil_iff.mpr (fun a ha => by rw [hall a ha]; rfl)
    rw [read_csv_any_encoding, hf]

/-- Closed instance of `loader_last_resort_total`: a byte sequence invalid
as UTF-8, with every attempt failed, still loads into a well-formed
table. -/
theorem loader_last_resort_total_witness :
    wellFormedTable (parseLenient
      (decodeUtf8Replace [0xFF, 0x41, 0x2C, 0x42, 0x0A, 0x43])) ∧
    wellFormedTable (read_csv_any_encoding [none]
      [0xFF, 0x41, 0x2C, 0x42, 0x0A, 0x43]) ∧
    ((∀ a ∈ ([none] : List (Option Table)), a = none) →
      read_csv_any_encoding [none] [0xFF, 0x41, 0x2C, 0x42, 0x0A, 0x43] =
        parseLenient (decodeUtf8Replace [0xFF, 0x41, 0x2C, 0x42, 0x0A, 0x43])) :=
  loader_last_resort_total [none] [0xFF, 0x41, 0x2C, 0x42, 0x0A, 0x43]
    (fun t ht => by simp at ht)

end PureIdTools
